import Mathlib

/-!
Verification of the Automated_Captions caption pipeline.

The Python source is shallowly embedded as follows:

* Python text (`str`) is modelled as `Str := List Char`; `str.strip` is
  `pystrip`, `str.split()` (whitespace splitting, dropping empties) is
  `pywords`, `" ".join` is `joinSep [' ']`.
* Python floats are modelled as exact rationals `ℚ`; `round(x, n)` is
  banker's rounding (`roundHalfEven`) on the scaled value, `int(x)` is
  truncation toward zero (`pytrunc`), `x % m` (positive modulus) is `pymod`,
  and `x // m` is the rational floor of the quotient.
* The pydantic `Segment` model (app/models/schemas.py) validates
  `start ≥ 0`, `end ≥ 0`, `len(text) ≥ 1` on construction; construction is
  modelled by `mkSegment : ... → Except String Segment` so that validation
  failures (raised `ValidationError`s) are visible as `.error`.
* External collaborators (the aeneas subprocess, the ffprobe duration
  probe) are modelled as injected inputs: the tool's outcome is a
  parameter `Except String (List Fragment)`, the probe an `Option ℚ`.
-/

/-- Characters, `Char.isWhitespace`, as used by `String.trim`; models the
whitespace class of Python's `str.strip`/`str.split`. -/
def isWS (c : Char) : Bool := c.isWhitespace

/-- Python strings as lists of characters. -/
abbrev Str := List Char

/-- Python `str.strip()`: drop whitespace from the front, then from the back. -/
def pystrip (s : Str) : Str :=
  (((s.dropWhile isWS).reverse.dropWhile isWS).reverse)

/-- Python `str.split()` with no separator: split on whitespace runs,
discarding empty pieces. -/
def pywords : Str → List Str
  | [] => []
  | c :: cs =>
    if isWS c then pywords cs
    else ((c :: cs).takeWhile (fun x => !(isWS x))) ::
         pywords ((c :: cs).dropWhile (fun x => !(isWS x)))
termination_by s => s.length
decreasing_by
  · simp only [List.length_cons]; omega
  · simp only [List.dropWhile]
    have h1 : (!(isWS c)) = true := by simp_all
    rw [h1]
    simp only [List.length_cons]
    have := (List.dropWhile_sublist (l := cs) (fun x => !(isWS x))).length_le
    omega

/-- Python `sep.join(pieces)`. -/
def joinSep (sep : Str) : List Str → Str
  | [] => []
  | [w] => w
  | w :: ws => w ++ sep ++ joinSep sep ws

/-- Python `int(x)` on a float: truncation toward zero. (`Rat.floor` is used
rather than `⌊·⌋` so that the definition evaluates by kernel reduction;
`intFloor_eq_ratFloor` below identifies the two.) -/
def pytrunc (q : ℚ) : ℤ := if q < 0 then -Rat.floor (-q) else Rat.floor q

/-- Python `a % b` on floats (used only with positive `b`): `a - b * (a // b)`. -/
def pymod (a b : ℚ) : ℚ := a - b * Rat.floor (a / b)

/-- Python `round(x)` to an integer: round half to even (banker's rounding). -/
def roundHalfEven (q : ℚ) : ℤ :=
  if q - Rat.floor q < 1/2 then Rat.floor q
  else if 1/2 < q - Rat.floor q then Rat.floor q + 1
  else if Rat.floor q % 2 = 0 then Rat.floor q else Rat.floor q + 1

/-- Python `round(x, 1)`: round to one decimal place, half to even. -/
def pyround1 (q : ℚ) : ℚ := (roundHalfEven (q * 10) : ℚ) / 10

/-- Python `round(x, 3)`: round to three decimal places, half to even. -/
def pyround3 (q : ℚ) : ℚ := (roundHalfEven (q * 1000) : ℚ) / 1000

/-- A subtitle segment record (app/models/schemas.py `Segment`), field
`end` renamed to `endTime` (`end` is a Lean keyword). -/
structure Segment where
  start : ℚ
  endTime : ℚ
  text : Str
deriving DecidableEq, Repr

/-- Constructing a pydantic `Segment`: field validation `start ≥ 0`,
`end ≥ 0`, `min_length=1` on `text`; a violation raises a
`ValidationError`, modelled as `.error`. -/
def mkSegment (s e : ℚ) (t : Str) : Except String Segment :=
  if 0 ≤ s ∧ 0 ≤ e ∧ 1 ≤ t.length then .ok ⟨s, e, t⟩
  else .error "ValidationError"

-- Basic facts about the rounding helpers.

theorem intFloor_eq_ratFloor (q : ℚ) : ⌊q⌋ = Rat.floor q := by
  rw [Rat.floor_def, Rat.floor_def']

theorem roundHalfEven_eq (q : ℚ) :
    roundHalfEven q =
      if Int.fract q < 1/2 then ⌊q⌋
      else if 1/2 < Int.fract q then ⌊q⌋ + 1
      else if ⌊q⌋ % 2 = 0 then ⌊q⌋ else ⌊q⌋ + 1 := by
  unfold roundHalfEven
  rw [intFloor_eq_ratFloor]
  rfl

theorem pymod_eq (a b : ℚ) : pymod a b = a - b * ⌊a / b⌋ := by
  unfold pymod
  rw [intFloor_eq_ratFloor]

theorem pytrunc_eq_floor {q : ℚ} (h : 0 ≤ q) : pytrunc q = ⌊q⌋ := by
  unfold pytrunc
  rw [if_neg (by linarith), intFloor_eq_ratFloor]

theorem roundHalfEven_cases (q : ℚ) :
    roundHalfEven q = ⌊q⌋ ∨ roundHalfEven q = ⌊q⌋ + 1 := by
  rw [roundHalfEven_eq]
  split
  · exact Or.inl rfl
  · split
    · exact Or.inr rfl
    · split
      · exact Or.inl rfl
      · exact Or.inr rfl

theorem roundHalfEven_nonneg {q : ℚ} (h : 0 ≤ q) : 0 ≤ roundHalfEven q := by
  have hf : (0 : ℤ) ≤ ⌊q⌋ := Int.le_floor.mpr (by exact_mod_cast h)
  rcases roundHalfEven_cases q with h1 | h1 <;> omega

theorem roundHalfEven_eq_floor {q : ℚ} (h : Int.fract q < 1/2) :
    roundHalfEven q = ⌊q⌋ := by
  rw [roundHalfEven_eq, if_pos h]

theorem roundHalfEven_eq_floor_succ {q : ℚ} (h : 1/2 < Int.fract q) :
    roundHalfEven q = ⌊q⌋ + 1 := by
  rw [roundHalfEven_eq, if_neg (by linarith), if_pos h]

theorem roundHalfEven_mono {p q : ℚ} (h : p ≤ q) :
    roundHalfEven p ≤ roundHalfEven q := by
  rcases lt_or_eq_of_le (Int.floor_le_floor h) with hf | hf
  · rcases roundHalfEven_cases p with h1 | h1 <;>
      rcases roundHalfEven_cases q with h2 | h2 <;> omega
  · -- equal floors: compare fractional parts
    have hfr : Int.fract p ≤ Int.fract q := by
      unfold Int.fract; rw [hf]; linarith
    by_cases hp : Int.fract p < 1/2
    · rw [roundHalfEven_eq_floor hp]
      rcases roundHalfEven_cases q with h2 | h2 <;> omega
    · by_cases hq : 1/2 < Int.fract q
      · rw [roundHalfEven_eq_floor_succ hq]
        rcases roundHalfEven_cases p with h1 | h1 <;> omega
      · have hp2 : Int.fract p = 1/2 :=
          le_antisymm (le_trans hfr (not_lt.mp hq)) (not_lt.mp hp)
        have hq2 : Int.fract q = 1/2 :=
          le_antisymm (not_lt.mp hq) (le_trans (not_lt.mp hp) hfr)
        have hpq : p = q := by
          have h1 : (⌊p⌋ : ℚ) + Int.fract p = p := Int.floor_add_fract p
          have h2 : (⌊q⌋ : ℚ) + Int.fract q = q := Int.floor_add_fract q
          rw [hp2] at h1; rw [hq2] at h2
          rw [← h1, ← h2, hf]
        rw [hpq]

theorem roundHalfEven_err (q : ℚ) : |(roundHalfEven q : ℚ) - q| ≤ 1/2 := by
  have h0 : Int.fract q = q - ⌊q⌋ := rfl
  have h1 : 0 ≤ Int.fract q := Int.fract_nonneg q
  have h2 : Int.fract q < 1 := Int.fract_lt_one q
  rw [roundHalfEven_eq]
  split
  · rw [abs_le]; constructor <;> push_cast <;> linarith
  · have h3 : ¬ Int.fract q < 1/2 := by assumption
    split
    · rw [abs_le]; constructor <;> push_cast <;> linarith
    · have h4 : Int.fract q = 1/2 := by
        have := not_lt.mp h3
        have := not_lt.mp (by assumption : ¬ 1/2 < Int.fract q)
        linarith
      split <;> (rw [abs_le]; constructor <;> push_cast <;> linarith)

theorem pyround3_nonneg {q : ℚ} (h : 0 ≤ q) : 0 ≤ pyround3 q := by
  unfold pyround3
  have : (0:ℤ) ≤ roundHalfEven (q * 1000) := roundHalfEven_nonneg (by linarith)
  positivity

theorem pyround3_mono {p q : ℚ} (h : p ≤ q) : pyround3 p ≤ pyround3 q := by
  unfold pyround3
  have := roundHalfEven_mono (p := p * 1000) (q := q * 1000) (by linarith)
  have h2 : ((roundHalfEven (p * 1000) : ℚ)) ≤ ((roundHalfEven (q * 1000) : ℚ)) := by
    exact_mod_cast this
  linarith

theorem pyround3_err (q : ℚ) : |pyround3 q - q| ≤ 1/2000 := by
  unfold pyround3
  have h := roundHalfEven_err (q * 1000)
  rw [abs_le] at h ⊢
  constructor <;> [linarith [h.1]; linarith [h.2]]

theorem pyround3_zero : pyround3 0 = 0 := by
  unfold pyround3
  rw [show (0 : ℚ) * 1000 = 0 by ring, roundHalfEven_eq]
  rw [if_pos (by rw [Int.fract_zero]; norm_num)]
  simp

-- Facts about `pywords`, `joinSep`, `pystrip`.

theorem pywords_nil : pywords [] = [] := by
  rw [pywords.eq_def]

theorem pywords_cons_ws {c : Char} {cs : Str} (h : isWS c = true) :
    pywords (c :: cs) = pywords cs := by
  conv_lhs => rw [pywords.eq_def]
  simp [h]

theorem pywords_cons_not {c : Char} {cs : Str} (h : isWS c = false) :
    pywords (c :: cs) =
      ((c :: cs).takeWhile (fun x => !(isWS x))) ::
        pywords ((c :: cs).dropWhile (fun x => !(isWS x))) := by
  conv_lhs => rw [pywords.eq_def]
  simp [h]

theorem pywords_mem_props :
    ∀ (s : Str), ∀ w ∈ pywords s, w ≠ [] ∧ ∀ c ∈ w, isWS c = false := by
  intro s
  induction s using pywords.induct with
  | case1 => simp [pywords_nil]
  | case2 c cs h ih =>
    rw [pywords_cons_ws (by simpa using h)]
    exact ih
  | case3 c cs h ih =>
    have hc : isWS c = false := by simpa using h
    rw [pywords_cons_not hc]
    intro w hw
    rcases List.mem_cons.mp hw with hw | hw
    · subst hw
      constructor
      · simp [List.takeWhile_cons, hc]
      · intro x hx
        have := List.mem_takeWhile_imp hx
        simpa using this
    · exact ih w hw

theorem pywords_word_nil {w : Str} (hne : w ≠ [])
    (hns : ∀ c ∈ w, isWS c = false) : pywords w = [w] := by
  rcases w with _ | ⟨c, cs⟩
  · exact absurd rfl hne
  · have hc : isWS c = false := hns c (List.mem_cons_self _ _)
    rw [pywords_cons_not hc]
    have ht : (c :: cs).takeWhile (fun x => !(isWS x)) = c :: cs := by
      rw [List.takeWhile_eq_self_iff.mpr]
      intro x hx; simp [hns x hx]
    have hd : (c :: cs).dropWhile (fun x => !(isWS x)) = [] := by
      rw [List.dropWhile_eq_nil_iff]
      intro x hx; simp [hns x hx]
    rw [ht, hd, pywords_nil]

theorem pywords_word_sep {w : Str} (hne : w ≠ [])
    (hns : ∀ c ∈ w, isWS c = false) (r : Str) :
    pywords (w ++ ' ' :: r) = w :: pywords r := by
  rcases w with _ | ⟨c, cs⟩
  · exact absurd rfl hne
  · have hc : isWS c = false := hns c (List.mem_cons_self _ _)
    rw [List.cons_append, pywords_cons_not hc]
    have hall : ∀ x ∈ c :: cs, (fun x => !(isWS x)) x = true := by
      intro x hx; simp [hns x hx]
    have ht : ((c :: cs) ++ ' ' :: r).takeWhile (fun x => !(isWS x)) = c :: cs := by
      rw [List.takeWhile_append_of_pos hall]
      simp [List.takeWhile_cons, isWS]
    have hd : ((c :: cs) ++ ' ' :: r).dropWhile (fun x => !(isWS x)) = ' ' :: r := by
      rw [List.dropWhile_append_of_pos hall]
      simp [List.dropWhile_cons, isWS]
    rw [← List.cons_append, ht, hd, pywords_cons_ws (by simp [isWS])]

theorem joinSep_cons_cons (sep : Str) (w v : Str) (ws : List Str) :
    joinSep sep (w :: v :: ws) = w ++ sep ++ joinSep sep (v :: ws) := by
  rfl

theorem pywords_joinSep (ws : List Str)
    (h : ∀ w ∈ ws, w ≠ [] ∧ ∀ c ∈ w, isWS c = false) :
    pywords (joinSep [' '] ws) = ws := by
  induction ws with
  | nil => simp [joinSep, pywords_nil]
  | cons w ws ih =>
    rcases ws with _ | ⟨v, vs⟩
    · have hw := h w (List.mem_cons_self _ _)
      exact (pywords_word_nil hw.1 hw.2 : pywords (joinSep [' '] [w]) = [w])
    · have hw := h w (List.mem_cons_self _ _)
      rw [joinSep_cons_cons]
      have : w ++ [' '] ++ joinSep [' '] (v :: vs) = w ++ ' ' :: joinSep [' '] (v :: vs) := by
        simp
      rw [this, pywords_word_sep hw.1 hw.2]
      rw [ih (fun x hx => h x (List.mem_cons_of_mem _ hx))]

theorem joinSep_ne_nil {sep : Str} {ws : List Str} (hne : ws ≠ [])
    (h : ∀ w ∈ ws, w ≠ []) : joinSep sep ws ≠ [] := by
  rcases ws with _ | ⟨w, ws⟩
  · exact absurd rfl hne
  · rcases ws with _ | ⟨v, vs⟩
    · exact h w (List.mem_cons_self _ _)
    · rw [joinSep_cons_cons]
      have hw : w ≠ [] := h w (List.mem_cons_self _ _)
      simp [hw]

theorem joinSep_append (sep : Str) {l₁ l₂ : List Str} (h₁ : l₁ ≠ []) (h₂ : l₂ ≠ []) :
    joinSep sep (l₁ ++ l₂) = joinSep sep l₁ ++ sep ++ joinSep sep l₂ := by
  induction l₁ with
  | nil => exact absurd rfl h₁
  | cons w ws ih =>
    rcases ws with _ | ⟨v, vs⟩
    · rcases l₂ with _ | ⟨u, us⟩
      · exact absurd rfl h₂
      · show joinSep sep (w :: u :: us) = joinSep sep [w] ++ sep ++ joinSep sep (u :: us)
        rw [joinSep_cons_cons]
        rfl
    · have ih' := ih (by simp)
      simp only [List.cons_append] at ih' ⊢
      rw [joinSep_cons_cons, ih', joinSep_cons_cons]
      simp only [List.append_assoc]

theorem joinSep_flat (sep : Str) (gs : List (List Str)) (h : ∀ g ∈ gs, g ≠ []) :
    joinSep sep (gs.map (joinSep sep)) = joinSep sep gs.flatten := by
  induction gs with
  | nil => simp [joinSep]
  | cons g gs ih =>
    rcases gs with _ | ⟨g', gs'⟩
    · simp [joinSep, List.flatten]
    · have hg : g ≠ [] := h g (List.mem_cons_self _ _)
      have hrest : (g' :: gs').flatten ≠ [] := by
        have hg' : g' ≠ [] := h g' (by simp)
        rcases g' with _ | ⟨x, xs⟩
        · exact absurd rfl hg'
        · simp
      have ih' := ih (fun x hx => h x (List.mem_cons_of_mem _ hx))
      calc joinSep sep ((g :: g' :: gs').map (joinSep sep))
          = joinSep sep g ++ sep ++ joinSep sep ((g' :: gs').map (joinSep sep)) := by
            simp only [List.map_cons]
            rw [joinSep_cons_cons]
        _ = joinSep sep g ++ sep ++ joinSep sep (g' :: gs').flatten := by rw [ih']
        _ = joinSep sep (g ++ (g' :: gs').flatten) := (joinSep_append sep hg hrest).symm
        _ = joinSep sep (g :: g' :: gs').flatten := by
            conv_rhs => rw [List.flatten_cons]

theorem mem_dropWhile_of_mem {p : Char → Bool} {c : Char} {l : Str}
    (hm : c ∈ l) (hc : p c = false) : c ∈ l.dropWhile p := by
  induction l with
  | nil => simp at hm
  | cons x xs ih =>
    rw [List.dropWhile_cons]
    rcases List.mem_cons.mp hm with h | h
    · subst h; simp [hc]
    · split
      · exact ih h
      · exact List.mem_cons_of_mem _ h

theorem mem_pystrip_of_mem {c : Char} {l : Str} (hm : c ∈ l)
    (hc : isWS c = false) : c ∈ pystrip l := by
  unfold pystrip
  rw [List.mem_reverse]
  apply mem_dropWhile_of_mem _ hc
  rw [List.mem_reverse]
  exact mem_dropWhile_of_mem hm hc

theorem pystrip_ne_nil {l : Str} (h : ∃ c ∈ l, isWS c = false) : pystrip l ≠ [] := by
  rcases h with ⟨c, hm, hc⟩
  exact List.ne_nil_of_mem (mem_pystrip_of_mem hm hc)

theorem pywords_ne_nil {s : Str} (h : ∃ c ∈ s, isWS c = false) : pywords s ≠ [] := by
  rcases h with ⟨c, hm, hc⟩
  induction s with
  | nil => simp at hm
  | cons x xs ih =>
    by_cases hx : isWS x = true
    · rw [pywords_cons_ws hx]
      rcases List.mem_cons.mp hm with h | h
      · subst h; rw [hc] at hx; exact absurd hx (by simp)
      · exact ih h
    · rw [pywords_cons_not (by simpa using hx)]
      simp

theorem exists_nonws_of_pystrip_ne_nil {l : Str} (h : pystrip l ≠ []) :
    ∃ c ∈ pystrip l, isWS c = false := by
  rcases hdr : pystrip l with _ | ⟨c, r⟩
  · exact absurd hdr h
  · refine ⟨c, List.mem_cons_self _ _, ?_⟩
    -- `pystrip l` is a prefix of `m := l.dropWhile isWS`, so `c` is the head
    -- of `m`, which is not whitespace since `m` drops leading whitespace.
    have hsplit : (l.dropWhile isWS).reverse.takeWhile isWS ++
        (l.dropWhile isWS).reverse.dropWhile isWS = (l.dropWhile isWS).reverse :=
      List.takeWhile_append_dropWhile isWS (l.dropWhile isWS).reverse
    have hm2 : pystrip l ++ ((l.dropWhile isWS).reverse.takeWhile isWS).reverse
        = l.dropWhile isWS := by
      have h2 := congrArg List.reverse hsplit
      simp only [List.reverse_append, List.reverse_reverse] at h2
      exact h2
    rw [hdr] at hm2
    have hhead : (l.dropWhile isWS).head? = some c := by
      rw [← hm2]; simp
    have hnot := List.head?_dropWhile_not isWS l
    rw [hhead] at hnot
    exact hnot

-- app/services/alignment.py

/-- Supported language codes (`LANGUAGE_MAP` in alignment.py). -/
def LANGUAGE_MAP : List (String × String) :=
  [("vie", "vie"), ("deu", "deu"), ("eng", "eng"), ("fra", "fra"),
   ("spa", "spa"), ("ita", "ita"), ("por", "por"), ("rus", "rus"),
   ("zho", "zho"), ("jpn", "jpn"), ("kor", "kor")]

/-- Grouping a word list into runs of `n` words: the Python loop
`for i in range(0, len(words), max_words): words[i:i+max_words]`.
Python's `range` raises for step 0; the `0` case is unreachable since the
only call site uses the default `max_words = 5`. -/
def toChunks : (n : ℕ) → List Str → List (List Str)
  | _, [] => []
  | 0, _ :: _ => []
  | n + 1, x :: xs => ((x :: xs).take (n + 1)) :: toChunks (n + 1) ((x :: xs).drop (n + 1))
termination_by n l => l.length
decreasing_by
  simp only [List.drop_succ_cons, List.length_cons, List.length_drop]
  omega

/-- `_split_into_sentences(text, max_words)`: strip, split into words, group
into chunks of `max_words` words, re-join each chunk with single spaces. -/
def splitIntoSentences (text : Str) (maxWords : ℕ) : List Str :=
  if pywords (pystrip text) = [] then []
  else (toChunks maxWords (pywords (pystrip text))).map (joinSep [' '])

/-- Greedy line-wrapping loop of `_normalize_segments`: words are packed into
the current line while `" ".join(current + [word])` stays within `cap`;
otherwise the current line (if non-empty) is emitted and the word starts a
new line. -/
def wrapLoop (cap : ℕ) : List Str → List Str → List Str
  | current, [] => if current = [] then [] else [joinSep [' '] current]
  | current, w :: ws =>
    if (joinSep [' '] (current ++ [w])).length ≤ cap then
      wrapLoop cap (current ++ [w]) ws
    else if current = [] then wrapLoop cap [w] ws
    else joinSep [' '] current :: wrapLoop cap [w] ws

/-- Per-segment body of `_normalize_segments`: strip the text; if it exceeds
`max_chars`, greedily wrap into lines capped at `max_chars // max_lines`
characters, keep only the first `max_lines` lines and join with "\n"; then
construct the output `Segment` (which validates). With `max_lines = 0` the
long branch evaluates `max_chars // 0`, a `ZeroDivisionError` in Python. -/
def normSeg (maxChars maxLines : ℕ) (seg : Segment) : Except String Segment :=
  if maxChars < (pystrip seg.text).length then
    if maxLines = 0 then .error "ZeroDivisionError"
    else
      mkSegment seg.start seg.endTime
        (joinSep ['\n']
          ((wrapLoop (maxChars / maxLines) [] (pywords (pystrip seg.text))).take
            maxLines))
  else
    mkSegment seg.start seg.endTime (pystrip seg.text)

/-- `_normalize_segments(segments, max_chars=80, max_lines=2)`: normalize each
segment in order; the first validation failure aborts (a raised exception). -/
def normalizeSegments (segs : List Segment) (maxChars maxLines : ℕ) :
    Except String (List Segment) :=
  match segs with
  | [] => .ok []
  | s :: rest =>
    match normSeg maxChars maxLines s with
    | .error e => .error e
    | .ok n =>
      match normalizeSegments rest maxChars maxLines with
      | .error e => .error e
      | .ok tail => .ok (n :: tail)

/-- Per-chunk duration of `_fallback_alignment`:
`max((len(sentence) / total_chars) * duration, 0.5)`. -/
def sentenceDuration (totalChars : ℕ) (duration : ℚ) (s : Str) : ℚ :=
  max (((s.length : ℚ) / (totalChars : ℚ)) * duration) (1/2)

/-- The accumulation loop of `_fallback_alignment`: walk the chunks with a
running clock `ct`, emitting `Segment(round(ct, 3), round(ct + d, 3), s)`
and advancing `ct += d`. -/
def fallbackLoop (tc : ℕ) (D : ℚ) : List Str → ℚ → Except String (List Segment)
  | [], _ => .ok []
  | s :: rest, ct =>
    let d := sentenceDuration tc D s
    match mkSegment (pyround3 ct) (pyround3 (ct + d)) s with
    | .error e => .error e
    | .ok seg =>
      match fallbackLoop tc D rest (ct + d) with
      | .error e => .error e
      | .ok tail => .ok (seg :: tail)

/-- Validation-free image of `fallbackLoop` (what the loop produces whenever
no constructed segment fails validation). -/
def fallbackSpec (tc : ℕ) (D : ℚ) : List Str → ℚ → List Segment
  | [], _ => []
  | s :: rest, ct =>
    let d := sentenceDuration tc D s
    ⟨pyround3 ct, pyround3 (ct + d), s⟩ :: fallbackSpec tc D rest (ct + d)

/-- The duration used by `_fallback_alignment`: the ffprobe result if the
probe succeeds, else `len(sentences) * 3.0`. -/
def estimatedDuration (sentences : List Str) (probed : Option ℚ) : ℚ :=
  match probed with
  | some d => d
  | none => (sentences.length : ℚ) * 3

/-- The guarded total character count of `_fallback_alignment`:
`sum(len(s) for s in sentences)`, replaced by 1 when zero. -/
def totalCharsOf (sentences : List Str) : ℕ :=
  if (sentences.map List.length).sum = 0 then 1
  else (sentences.map List.length).sum

/-- `_fallback_alignment(sentences, audio_path)` with the duration probe made
an explicit input (`none` = probe failure). -/
def fallbackAlignment (sentences : List Str) (probed : Option ℚ) :
    Except String (List Segment) :=
  fallbackLoop (totalCharsOf sentences) (estimatedDuration sentences probed)
    sentences 0

/-- One fragment of the aeneas JSON output: begin/end offsets and the text
lines (`fragment["lines"]`). -/
structure Fragment where
  beginQ : ℚ
  endQ : ℚ
  lines : List Str
deriving DecidableEq, Repr

/-- The parsing loop of `_run_aeneas`: take each fragment's first text line,
skip fragments whose line is empty after stripping, construct `Segment`s
(which validate). An empty `lines` list indexes out of bounds in Python. -/
def parseFragments : List Fragment → Except String (List Segment)
  | [] => .ok []
  | f :: rest =>
    match f.lines with
    | [] => .error "IndexError"
    | line :: _ =>
      if pystrip line = [] then parseFragments rest
      else
        match mkSegment f.beginQ f.endQ (pystrip line) with
        | .error e => .error e
        | .ok seg =>
          match parseFragments rest with
          | .error e => .error e
          | .ok segs => .ok (seg :: segs)

/-- `_run_aeneas` with the external process modelled as its outcome: a failed
invocation (non-zero exit, missing executable, malformed JSON) is `.error`;
a successful one yields the fragment list, which is then parsed. -/
def runAeneas (toolExit : Except String (List Fragment)) :
    Except String (List Segment) :=
  match toolExit with
  | .error e => .error e
  | .ok frags => parseFragments frags

/-- Language validation in `forced_align`: unknown codes are replaced by
"eng" (with a logged warning). -/
def resolveLanguage (language : String) : String :=
  if (LANGUAGE_MAP.lookup language).isSome then language else "eng"

/-- `forced_align(audio_path, script_text, language)`. The external aeneas
tool is an injected function from the aeneas language code to its outcome;
the duration probe used by the fallback is an injected `Option ℚ`.
Control flow follows the source: resolve the language, split the script,
fail with `AlignmentError` when no sentences exist, try aeneas, fall back on
any aeneas failure, then normalize. -/
def forcedAlign (script : Str) (language : String)
    (tool : String → Except String (List Fragment)) (probed : Option ℚ) :
    Except String (List Segment) :=
  if splitIntoSentences script 5 = [] then
    .error "No sentences found in script text"
  else
    match
      (match runAeneas
          (tool ((LANGUAGE_MAP.lookup (resolveLanguage language)).getD "eng")) with
        | .ok segs => Except.ok segs
        | .error _ => fallbackAlignment (splitIntoSentences script 5) probed) with
    | .error e => .error e
    | .ok segs => normalizeSegments segs 80 2

-- Facts about `toChunks`.

theorem toChunks_nil (n : ℕ) : toChunks n [] = [] := by
  rw [toChunks.eq_def]
  cases n <;> rfl

theorem toChunks_cons (n : ℕ) (x : Str) (xs : List Str) :
    toChunks (n + 1) (x :: xs) =
      ((x :: xs).take (n + 1)) :: toChunks (n + 1) ((x :: xs).drop (n + 1)) := by
  rw [toChunks.eq_def]

theorem toChunks_flatten_aux (n : ℕ) :
    ∀ (k : ℕ) (l : List Str), l.length ≤ k → (toChunks (n + 1) l).flatten = l := by
  intro k
  induction k with
  | zero =>
    intro l hl
    have hln : l = [] := List.eq_nil_of_length_eq_zero (Nat.le_zero.mp hl)
    subst hln
    simp [toChunks_nil]
  | succ k ih =>
    intro l hl
    rcases l with _ | ⟨x, xs⟩
    · simp [toChunks_nil]
    · rw [toChunks_cons, List.flatten_cons,
        ih ((x :: xs).drop (n + 1)) (by simp [List.length_drop] at hl ⊢; omega)]
      exact List.take_append_drop _ _

theorem toChunks_flatten (n : ℕ) (l : List Str) :
    (toChunks (n + 1) l).flatten = l :=
  toChunks_flatten_aux n l.length l le_rfl

theorem toChunks_ne_nil {n : ℕ} {l : List Str} (h : l ≠ []) :
    toChunks (n + 1) l ≠ [] := by
  rcases l with _ | ⟨x, xs⟩
  · exact absurd rfl h
  · rw [toChunks_cons]; simp

theorem toChunks_mem_props (n : ℕ) :
    ∀ (k : ℕ) (l : List Str), l.length ≤ k →
      ∀ g ∈ toChunks (n + 1) l, g ≠ [] ∧ g.length ≤ n + 1 := by
  intro k
  induction k with
  | zero =>
    intro l hl
    have hln : l = [] := List.eq_nil_of_length_eq_zero (Nat.le_zero.mp hl)
    subst hln
    simp [toChunks_nil]
  | succ k ih =>
    intro l hl g hg
    rcases l with _ | ⟨x, xs⟩
    · simp [toChunks_nil] at hg
    · rw [toChunks_cons] at hg
      rcases List.mem_cons.mp hg with hg | hg
      · subst hg
        refine ⟨by simp, ?_⟩
        simpa using List.length_take_le (n + 1) (x :: xs)
      · exact ih _ (by simp [List.length_drop] at hl ⊢; omega) g hg

theorem toChunks_dropLast_length (n : ℕ) :
    ∀ (k : ℕ) (l : List Str), l.length ≤ k →
      ∀ g ∈ (toChunks (n + 1) l).dropLast, g.length = n + 1 := by
  intro k
  induction k with
  | zero =>
    intro l hl
    have hln : l = [] := List.eq_nil_of_length_eq_zero (Nat.le_zero.mp hl)
    subst hln
    simp [toChunks_nil]
  | succ k ih =>
    intro l hl g hg
    rcases l with _ | ⟨x, xs⟩
    · simp [toChunks_nil] at hg
    · rw [toChunks_cons] at hg
      rcases hrest : (x :: xs).drop (n + 1) with _ | ⟨y, ys⟩
      · rw [hrest, toChunks_nil] at hg
        simp at hg
      · have hne : toChunks (n + 1) ((x :: xs).drop (n + 1)) ≠ [] := by
          rw [hrest]; exact toChunks_ne_nil (by simp)
        rcases hch : toChunks (n + 1) ((x :: xs).drop (n + 1)) with _ | ⟨c, cs⟩
        · exact absurd hch hne
        · rw [hch, List.dropLast_cons₂] at hg
          rcases List.mem_cons.mp hg with hg | hg
          · subst hg
            -- the dropped part is non-empty, so the list has > n+1 elements
            have hlong : n + 1 < (x :: xs).length := by
              have h2 := congrArg List.length hrest
              rw [List.length_drop] at h2
              simp only [List.length_cons] at h2 ⊢
              omega
            rw [List.length_take]
            exact Nat.min_eq_left (by omega)
          · have := ih ((x :: xs).drop (n + 1))
              (by simp [List.length_drop] at hl ⊢; omega)
            rw [hch] at this
            exact this g hg

-- Facts about `wrapLoop`, `normSeg`, `normalizeSegments`.

theorem wrapLoop_ne_nil (cap : ℕ) :
    ∀ (ws current : List Str), current ≠ [] ∨ ws ≠ [] →
      wrapLoop cap current ws ≠ [] := by
  intro ws
  induction ws with
  | nil =>
    intro current h
    rcases h with h | h
    · simp only [wrapLoop, if_neg h]
      simp
    · exact absurd rfl h
  | cons w ws ih =>
    intro current _
    simp only [wrapLoop]
    split
    · exact ih (current ++ [w]) (Or.inl (by simp))
    · split
      · exact ih [w] (Or.inl (by simp))
      · simp

theorem wrapLoop_mem_ne_nil (cap : ℕ) :
    ∀ (ws current : List Str), (∀ x ∈ current, x ≠ []) → (∀ x ∈ ws, x ≠ []) →
      ∀ l ∈ wrapLoop cap current ws, l ≠ [] := by
  intro ws
  induction ws with
  | nil =>
    intro current hcur _ l hl
    simp only [wrapLoop] at hl
    split at hl
    · simp at hl
    · rcases List.mem_cons.mp hl with hl | hl
      · subst hl
        exact joinSep_ne_nil (by assumption) hcur
      · simp at hl
  | cons w ws ih =>
    intro current hcur hws l hl
    have hw : w ≠ [] := hws w (List.mem_cons_self _ _)
    have hws' : ∀ x ∈ ws, x ≠ [] := fun x hx => hws x (List.mem_cons_of_mem _ hx)
    simp only [wrapLoop] at hl
    split at hl
    · refine ih (current ++ [w]) ?_ hws' l hl
      intro x hx
      rcases List.mem_append.mp hx with hx | hx
      · exact hcur x hx
      · simp at hx; subst hx; exact hw
    · split at hl
      · exact ih [w] (by simpa using hw) hws' l hl
      · rcases List.mem_cons.mp hl with hl | hl
        · subst hl
          exact joinSep_ne_nil (by assumption) hcur
        · refine ih [w] (by simpa using hw) hws' l hl

theorem mkSegment_ok {s e : ℚ} {t : Str} (hs : 0 ≤ s) (he : 0 ≤ e)
    (ht : t ≠ []) : mkSegment s e t = .ok ⟨s, e, t⟩ := by
  unfold mkSegment
  rw [if_pos ⟨hs, he, List.length_pos.mpr ht⟩]

theorem mkSegment_ok_inv {s e : ℚ} {t : Str} {seg : Segment}
    (h : mkSegment s e t = .ok seg) :
    seg = ⟨s, e, t⟩ ∧ 0 ≤ s ∧ 0 ≤ e ∧ 1 ≤ t.length := by
  unfold mkSegment at h
  split at h
  · cases h
    exact ⟨rfl, by assumption⟩
  · cases h

theorem normSeg_ok {maxChars maxLines : ℕ} {seg : Segment}
    (hs : 0 ≤ seg.start) (he : 0 ≤ seg.endTime)
    (hc : ∃ c ∈ seg.text, isWS c = false) (hml : 1 ≤ maxLines) :
    ∃ t, normSeg maxChars maxLines seg = .ok ⟨seg.start, seg.endTime, t⟩ := by
  rcases hc with ⟨c, hcm, hcw⟩
  have hstrip : c ∈ pystrip seg.text := mem_pystrip_of_mem hcm hcw
  unfold normSeg
  by_cases hlen : maxChars < (pystrip seg.text).length
  · rw [if_pos hlen, if_neg (by omega)]
    have hwords : pywords (pystrip seg.text) ≠ [] :=
      pywords_ne_nil ⟨c, hstrip, hcw⟩
    have hlines : wrapLoop (maxChars / maxLines) [] (pywords (pystrip seg.text)) ≠ [] :=
      wrapLoop_ne_nil _ _ [] (Or.inr hwords)
    have hlinesne : ∀ l ∈ wrapLoop (maxChars / maxLines) [] (pywords (pystrip seg.text)),
        l ≠ [] := by
      refine wrapLoop_mem_ne_nil _ _ [] (by simp) ?_
      intro x hx
      exact (pywords_mem_props _ x hx).1
    set lines := wrapLoop (maxChars / maxLines) [] (pywords (pystrip seg.text)) with hldef
    have htake : lines.take maxLines ≠ [] := by
      rcases lines with _ | ⟨l, ls⟩
      · exact absurd rfl hlines
      · rcases maxLines with _ | m
        · omega
        · simp
    have hjoin : joinSep ['\n'] (lines.take maxLines) ≠ [] := by
      refine joinSep_ne_nil htake ?_
      intro x hx
      exact hlinesne x (List.mem_of_mem_take hx)
    exact ⟨_, mkSegment_ok hs he hjoin⟩
  · rw [if_neg hlen]
    exact ⟨_, mkSegment_ok hs he (List.ne_nil_of_mem hstrip)⟩

theorem normSeg_start_end {maxChars maxLines : ℕ} {seg out : Segment}
    (h : normSeg maxChars maxLines seg = .ok out) :
    out.start = seg.start ∧ out.endTime = seg.endTime := by
  unfold normSeg at h
  split at h
  · split at h
    · cases h
    · rcases mkSegment_ok_inv h with ⟨rfl, -⟩
      exact ⟨rfl, rfl⟩
  · rcases mkSegment_ok_inv h with ⟨rfl, -⟩
    exact ⟨rfl, rfl⟩

theorem normSeg_identity {maxChars maxLines : ℕ} {seg : Segment}
    (hs : 0 ≤ seg.start) (he : 0 ≤ seg.endTime)
    (hstrip : pystrip seg.text = seg.text) (hne : seg.text ≠ [])
    (hlen : seg.text.length ≤ maxChars) :
    normSeg maxChars maxLines seg = .ok seg := by
  unfold normSeg
  rw [hstrip, if_neg (by omega), mkSegment_ok hs he hne]

theorem normalizeSegments_ok {maxChars maxLines : ℕ} (hml : 1 ≤ maxLines) :
    ∀ (segs : List Segment),
      (∀ s ∈ segs, 0 ≤ s.start ∧ 0 ≤ s.endTime ∧ ∃ c ∈ s.text, isWS c = false) →
      ∃ out, normalizeSegments segs maxChars maxLines = .ok out ∧
        out.length = segs.length := by
  intro segs
  induction segs with
  | nil => intro _; exact ⟨[], rfl, rfl⟩
  | cons s rest ih =>
    intro h
    have hs := h s (List.mem_cons_self _ _)
    rcases normSeg_ok hs.1 hs.2.1 hs.2.2 hml with ⟨t, ht⟩
    rcases ih (fun x hx => h x (List.mem_cons_of_mem _ hx)) with ⟨out, hout, hlen⟩
    refine ⟨⟨s.start, s.endTime, t⟩ :: out, ?_, by simp [hlen]⟩
    unfold normalizeSegments
    rw [ht, hout]

theorem normalizeSegments_preserves_timing {maxChars maxLines : ℕ} :
    ∀ (segs out : List Segment),
      normalizeSegments segs maxChars maxLines = .ok out →
      List.Forall₂ (fun a b => b.start = a.start ∧ b.endTime = a.endTime) segs out := by
  intro segs
  induction segs with
  | nil =>
    intro out h
    unfold normalizeSegments at h
    cases h
    exact List.Forall₂.nil
  | cons s rest ih =>
    intro out h
    unfold normalizeSegments at h
    rcases hn : normSeg maxChars maxLines s with e | n
    · rw [hn] at h; cases h
    · rw [hn] at h
      rcases hr : normalizeSegments rest maxChars maxLines with e | tail
      · rw [hr] at h; cases h
      · rw [hr] at h
        cases h
        exact List.Forall₂.cons (normSeg_start_end hn) (ih tail hr)

/-- C4, counterexample: a segment whose text ` hi ` has length 4 ≤ maxChars is
not returned unchanged — `_normalize_segments` strips it to `hi`, so the
"identity on segments with text within maxChars" part of the claim is false. -/
theorem C4_counterexample :
    normalizeSegments [⟨0, 1, (" hi ").toList⟩] 80 2 =
      .ok [⟨0, 1, ("hi").toList⟩] ∧
    (" hi ").toList ≠ ("hi").toList ∧
    ((" hi ").toList).length ≤ 80 := by
  refine ⟨by rfl, by decide, by decide⟩

/-- C4 (amended): `_normalize_segments` preserves every segment's start/end
whenever it returns (only the text may differ), and a segment whose text is
already stripped (no leading/trailing whitespace), non-empty, of length at
most maxChars, with valid (non-negative) timing, is returned unchanged.
(As written the claim fails: the text is stripped before the length check,
so texts with surrounding whitespace are modified even when short.) -/
theorem C4_normalize_frame :
    (∀ (segs : List Segment) (maxChars maxLines : ℕ) (out : List Segment),
        normalizeSegments segs maxChars maxLines = .ok out →
        List.Forall₂ (fun a b => b.start = a.start ∧ b.endTime = a.endTime)
          segs out) ∧
    (∀ (seg : Segment) (maxChars maxLines : ℕ),
        0 ≤ seg.start → 0 ≤ seg.endTime → pystrip seg.text = seg.text →
        seg.text ≠ [] → seg.text.length ≤ maxChars →
        normSeg maxChars maxLines seg = .ok seg) :=
  ⟨fun segs maxChars maxLines out h =>
      normalizeSegments_preserves_timing segs out h,
   fun _ _ _ hs he hst hne hlen => normSeg_identity hs he hst hne hlen⟩

/-- C4 witness: the amended theorem applied to a concrete stripped short
segment. -/
theorem C4_witness :
    normSeg 80 2 ⟨0, 1, ("hi").toList⟩ = .ok ⟨0, 1, ("hi").toList⟩ :=
  C4_normalize_frame.2 ⟨0, 1, ("hi").toList⟩ 80 2 (by decide) (by decide)
    (by decide) (by decide) (by decide)

/-- C5, counterexample: `normalize` is not total. A segment whose text is
whitespace-only strips to the empty string, and constructing the output
`Segment` then fails pydantic validation (`min_length=1`); and with
`maxLines = 0` a long text reaches `max_chars // max_lines`, a
`ZeroDivisionError`. -/
theorem C5_counterexample :
    normalizeSegments [⟨0, 1, (" ").toList⟩] 80 2 = .error "ValidationError" ∧
    normalizeSegments [⟨0, 1, ("abcd").toList⟩] 2 0 =
      .error "ZeroDivisionError" := by
  refine ⟨by rfl, by rfl⟩

/-- C5 (amended): `_normalize_segments` is total and returns an ordered list
of the same length provided `maxLines ≥ 1` and every input segment has
non-negative timing and a text containing at least one non-whitespace
character. (As written the claim fails: whitespace-only texts, and
`maxLines = 0` with an over-long text, raise.) -/
theorem C5_normalize_total :
    ∀ (segs : List Segment) (maxChars maxLines : ℕ),
      1 ≤ maxLines →
      (∀ s ∈ segs, 0 ≤ s.start ∧ 0 ≤ s.endTime ∧
        ∃ c ∈ s.text, isWS c = false) →
      ∃ out, normalizeSegments segs maxChars maxLines = .ok out ∧
        out.length = segs.length :=
  fun segs _ _ hml h => normalizeSegments_ok hml segs h

/-- C5 witness: the amended theorem applied to a concrete valid input. -/
theorem C5_witness :
    ∃ out, normalizeSegments [⟨0, 1, ("hi").toList⟩] 80 2 = .ok out ∧
      out.length = ([⟨0, 1, ("hi").toList⟩] : List Segment).length :=
  C5_normalize_total [⟨0, 1, ("hi").toList⟩] 80 2 (by decide) (by decide)

-- Facts about `splitIntoSentences`.

theorem splitIntoSentences_eq (text : Str) (mw : ℕ) :
    splitIntoSentences text mw =
      (toChunks mw (pywords (pystrip text))).map (joinSep [' ']) := by
  unfold splitIntoSentences
  split
  · rename_i h
    rw [h, toChunks_nil, List.map_nil]
  · rfl

theorem toChunks_mem_subset {n : ℕ} {l : List Str} {g : List Str}
    (hg : g ∈ toChunks (n + 1) l) : ∀ x ∈ g, x ∈ l := by
  intro x hx
  have hm : x ∈ (toChunks (n + 1) l).flatten := List.mem_flatten.mpr ⟨g, hg, hx⟩
  rwa [toChunks_flatten] at hm

/-- C7: `_split_into_sentences` trims and whitespace-splits the script, groups
the words in order into chunks of exactly `maxWords` words (the last chunk
possibly shorter), re-joined with single spaces, so that splitting the
space-joined concatenation of the chunks recovers exactly the original word
sequence; empty or whitespace-only input yields the empty list rather than
an error. (`maxWords ≥ 1` because Python's `range` with step 0 raises; the
only call site uses the default 5.) -/
theorem C7_segmenter :
    (∀ (text : Str) (maxWords : ℕ), 1 ≤ maxWords →
      pywords (joinSep [' '] (splitIntoSentences text maxWords)) =
        pywords (pystrip text) ∧
      (∀ c ∈ (splitIntoSentences text maxWords).dropLast,
        (pywords c).length = maxWords) ∧
      (∀ c ∈ splitIntoSentences text maxWords,
        c ≠ [] ∧ (pywords c).length ≤ maxWords)) ∧
    (∀ (text : Str) (maxWords : ℕ),
      pywords (pystrip text) = [] → splitIntoSentences text maxWords = []) ∧
    splitIntoSentences [] 5 = [] ∧
    splitIntoSentences ("   ").toList 5 = [] := by
  have hnil : pywords (pystrip ([] : Str)) = [] := by
    rw [show pystrip ([] : Str) = [] by decide, pywords_nil]
  have hws3 : pywords (pystrip (("   ").toList)) = [] := by
    rw [show pystrip (("   ").toList) = [] by decide, pywords_nil]
  refine ⟨?_, ?_,
    by rw [splitIntoSentences_eq, hnil, toChunks_nil, List.map_nil],
    by rw [splitIntoSentences_eq, hws3, toChunks_nil, List.map_nil]⟩
  · intro text mw hmw
    obtain ⟨n, rfl⟩ : ∃ n, mw = n + 1 := ⟨mw - 1, by omega⟩
    have hprops := pywords_mem_props (pystrip text)
    have hgne : ∀ g ∈ toChunks (n + 1) (pywords (pystrip text)), g ≠ [] :=
      fun g hg =>
        (toChunks_mem_props n (pywords (pystrip text)).length _ le_rfl g hg).1
    rw [splitIntoSentences_eq]
    refine ⟨?_, ?_, ?_⟩
    · rw [joinSep_flat _ _ hgne, toChunks_flatten]
      exact pywords_joinSep _ hprops
    · intro c hc
      rw [← List.map_dropLast] at hc
      rcases List.mem_map.mp hc with ⟨g, hgmem, rfl⟩
      have hglen :=
        toChunks_dropLast_length n (pywords (pystrip text)).length _ le_rfl g hgmem
      have hsub := toChunks_mem_subset (List.dropLast_subset _ hgmem)
      rw [pywords_joinSep g (fun w hw => hprops w (hsub w hw))]
      exact hglen
    · intro c hc
      rcases List.mem_map.mp hc with ⟨g, hgmem, rfl⟩
      have hp := toChunks_mem_props n (pywords (pystrip text)).length _ le_rfl g hgmem
      have hsub := toChunks_mem_subset hgmem
      constructor
      · exact joinSep_ne_nil hp.1 (fun x hx => (hprops x (hsub x hx)).1)
      · rw [pywords_joinSep g (fun w hw => hprops w (hsub w hw))]
        exact hp.2
  · intro text mw h
    rw [splitIntoSentences_eq, h, toChunks_nil, List.map_nil]

/-- C7 witness: the segmenter properties applied to a concrete script. -/
theorem C7_witness :
    pywords (joinSep [' ']
        (splitIntoSentences ("one two three four five six").toList 5)) =
      pywords (pystrip ("one two three four five six").toList) ∧
    (∀ c ∈ (splitIntoSentences ("one two three four five six").toList 5).dropLast,
      (pywords c).length = 5) ∧
    (∀ c ∈ splitIntoSentences ("one two three four five six").toList 5,
      c ≠ [] ∧ (pywords c).length ≤ 5) :=
  C7_segmenter.1 ("one two three four five six").toList 5 (by decide)

-- Facts about the fallback alignment.

theorem fallbackSpec_cons (tc : ℕ) (D : ℚ) (s : Str) (rest : List Str) (ct : ℚ) :
    fallbackSpec tc D (s :: rest) ct =
      ⟨pyround3 ct, pyround3 (ct + sentenceDuration tc D s), s⟩ ::
        fallbackSpec tc D rest (ct + sentenceDuration tc D s) := rfl

theorem fallbackSpec_length (tc : ℕ) (D : ℚ) :
    ∀ (ss : List Str) (ct : ℚ), (fallbackSpec tc D ss ct).length = ss.length := by
  intro ss
  induction ss with
  | nil => intro ct; rfl
  | cons s rest ih => intro ct; rw [fallbackSpec_cons]; simp [ih]

theorem sentenceDuration_ge (tc : ℕ) (D : ℚ) (s : Str) :
    1/2 ≤ sentenceDuration tc D s := le_max_right _ _

theorem fallbackLoop_eq_spec (tc : ℕ) (D : ℚ) :
    ∀ (ss : List Str) (ct : ℚ), 0 ≤ ct → (∀ s ∈ ss, s ≠ []) →
      fallbackLoop tc D ss ct = .ok (fallbackSpec tc D ss ct) := by
  intro ss
  induction ss with
  | nil => intro ct _ _; rfl
  | cons s rest ih =>
    intro ct hct hs
    have hd := sentenceDuration_ge tc D s
    have h2 : (0:ℚ) ≤ ct + sentenceDuration tc D s := by linarith
    simp only [fallbackLoop, fallbackSpec]
    rw [mkSegment_ok (pyround3_nonneg hct) (pyround3_nonneg h2)
      (hs s (List.mem_cons_self _ _))]
    rw [ih _ h2 (fun x hx => hs x (List.mem_cons_of_mem _ hx))]

theorem fallbackSpec_chain (tc : ℕ) (D : ℚ) :
    ∀ (ss : List Str) (ct : ℚ),
      List.Chain' (fun a b => a.endTime = b.start ∧ a.start ≤ b.start)
        (fallbackSpec tc D ss ct) := by
  intro ss
  induction ss with
  | nil => intro ct; simp [fallbackSpec]
  | cons s rest ih =>
    intro ct
    rw [fallbackSpec_cons, List.chain'_cons']
    refine ⟨?_, ih _⟩
    intro y hy
    rcases rest with _ | ⟨t, ts⟩
    · simp [fallbackSpec] at hy
    · rw [fallbackSpec_cons] at hy
      simp only [List.head?_cons, Option.mem_def, Option.some_inj] at hy
      subst hy
      have hd := sentenceDuration_ge tc D s
      exact ⟨rfl, pyround3_mono (by linarith)⟩

theorem getLast?_cons_of_ne_nil {α : Type} (a : α) {l : List α} (h : l ≠ []) :
    (a :: l).getLast? = l.getLast? := by
  rcases l with _ | ⟨b, t⟩
  · exact absurd rfl h
  · exact List.getLast?_cons_cons

theorem fallbackSpec_last_end (tc : ℕ) (D : ℚ) :
    ∀ (ss : List Str) (ct : ℚ), ss ≠ [] →
      ((fallbackSpec tc D ss ct).map Segment.endTime).getLast? =
        some (pyround3 (ct + (ss.map (sentenceDuration tc D)).sum)) := by
  intro ss
  induction ss with
  | nil => intro ct h; exact absurd rfl h
  | cons s rest ih =>
    intro ct _
    rcases rest with _ | ⟨t, ts⟩
    · simp [fallbackSpec_cons, fallbackSpec]
    · rw [fallbackSpec_cons, List.map_cons]
      have hne : (fallbackSpec tc D (t :: ts)
          (ct + sentenceDuration tc D s)).map Segment.endTime ≠ [] := by
        rw [fallbackSpec_cons]; simp
      rw [getLast?_cons_of_ne_nil _ hne,
        ih (ct + sentenceDuration tc D s) (by simp)]
      have harr : ct + sentenceDuration tc D s +
          (List.map (sentenceDuration tc D) (t :: ts)).sum =
          ct + (List.map (sentenceDuration tc D) (s :: t :: ts)).sum := by
        simp only [List.map_cons, List.sum_cons]
        ring
      rw [harr]

theorem fallbackSpec_durations (tc : ℕ) (D : ℚ) :
    ∀ (ss : List Str) (ct : ℚ),
      List.Forall₂ (fun seg s =>
          |(seg.endTime - seg.start) - sentenceDuration tc D s| ≤ 1/1000)
        (fallbackSpec tc D ss ct) ss := by
  intro ss
  induction ss with
  | nil => intro ct; simp [fallbackSpec]
  | cons s rest ih =>
    intro ct
    rw [fallbackSpec_cons]
    refine List.Forall₂.cons ?_ (ih _)
    have h1 := pyround3_err ct
    have h2 := pyround3_err (ct + sentenceDuration tc D s)
    rw [abs_le] at h1 h2 ⊢
    constructor
    · linarith [h1.1, h1.2, h2.1, h2.2]
    · linarith [h1.1, h1.2, h2.1, h2.2]

/-- Decidable equality of `Except` results, for evaluating the model at
concrete inputs. -/
def exceptDecEq {ε α : Type} [DecidableEq ε] [DecidableEq α] :
    DecidableEq (Except ε α)
  | .error e, .error f =>
    if h : e = f then isTrue (by rw [h])
    else isFalse (by intro hh; cases hh; exact h rfl)
  | .error _, .ok _ => isFalse (by intro h; cases h)
  | .ok _, .error _ => isFalse (by intro h; cases h)
  | .ok a, .ok b =>
    if h : a = b then isTrue (by rw [h])
    else isFalse (by intro hh; cases hh; exact h rfl)

instance {ε α : Type} [DecidableEq ε] [DecidableEq α] :
    DecidableEq (Except ε α) := exceptDecEq

section

attribute [local semireducible] Rat.mul Rat.inv Rat.add Rat.sub

/-- C1, counterexample: the 0.5 s per-chunk floor breaks the "last end ≈ total
duration" part of the claim. With chunks `aaaaaaaaaa` (10 chars) and `b`
(1 char) and a probed duration of 3 s, the short chunk's proportional share
3/11 s is floored to 0.5 s, so the final end is 3.227 s, not 3 s (the gap
0.227 s far exceeds millisecond rounding). -/
theorem C1_counterexample :
    fallbackAlignment [("aaaaaaaaaa").toList, ("b").toList] (some 3) =
      .ok [⟨0, 2727/1000, ("aaaaaaaaaa").toList⟩,
           ⟨2727/1000, 3227/1000, ("b").toList⟩] ∧
    estimatedDuration [("aaaaaaaaaa").toList, ("b").toList] (some 3) = 3 ∧
    ¬ |(3227 : ℚ)/1000 - 3| ≤ 1/1000 := by
  refine ⟨by decide, by rfl, fun hc => ?_⟩
  rw [abs_le] at hc
  linarith [hc.2]

end

/-- C1 (amended): for a non-empty list of non-empty chunks,
`_fallback_alignment` yields one segment per chunk, the first start is 0,
each end equals the next start, starts are non-decreasing, and the last end
is the millisecond rounding of the SUM of the per-chunk durations (each the
proportional share floored at 0.5 s); this equals the estimated total
duration only when no chunk's proportional share falls below 0.5 s. -/
theorem C1_fallback_timeline :
    ∀ (sentences : List Str) (probed : Option ℚ),
      sentences ≠ [] → (∀ s ∈ sentences, s ≠ []) →
      ∃ segs, fallbackAlignment sentences probed = .ok segs ∧
        segs.length = sentences.length ∧
        (segs.map Segment.start).head? = some 0 ∧
        List.Chain' (fun a b => a.endTime = b.start ∧ a.start ≤ b.start) segs ∧
        (segs.map Segment.endTime).getLast? =
          some (pyround3 ((sentences.map
            (sentenceDuration (totalCharsOf sentences)
              (estimatedDuration sentences probed))).sum)) ∧
        ((∀ s ∈ sentences,
            1/2 ≤ ((s.length : ℚ) / (totalCharsOf sentences : ℚ)) *
              estimatedDuration sentences probed) →
          (segs.map Segment.endTime).getLast? =
            some (pyround3 (estimatedDuration sentences probed))) := by
  intro sentences probed hne hall
  refine ⟨fallbackSpec (totalCharsOf sentences)
    (estimatedDuration sentences probed) sentences 0, ?_, ?_, ?_, ?_, ?_, ?_⟩
  · exact fallbackLoop_eq_spec _ _ sentences 0 le_rfl hall
  · exact fallbackSpec_length _ _ sentences 0
  · rcases sentences with _ | ⟨s, rest⟩
    · exact absurd rfl hne
    · rw [fallbackSpec_cons, List.map_cons, List.head?_cons, pyround3_zero]
  · exact fallbackSpec_chain _ _ sentences 0
  · rw [fallbackSpec_last_end _ _ sentences 0 hne, zero_add]
  · intro hfloor
    rw [fallbackSpec_last_end _ _ sentences 0 hne, zero_add]
    -- the character sum is positive, so `totalCharsOf` is that sum
    have hpos : 0 < (sentences.map List.length).sum := by
      rcases sentences with _ | ⟨s, rest⟩
      · exact absurd rfl hne
      · have hs : s ≠ [] := hall s (List.mem_cons_self _ _)
        have h1 : 0 < s.length := List.length_pos.mpr hs
        rw [List.map_cons, List.sum_cons]
        omega
    have htc : totalCharsOf sentences = (sentences.map List.length).sum := by
      unfold totalCharsOf
      rw [if_neg (by omega)]
    have htcq : ((totalCharsOf sentences : ℕ) : ℚ) ≠ 0 := by
      rw [htc]
      exact Nat.cast_ne_zero.mpr hpos.ne'
    have hsum : (sentences.map (sentenceDuration (totalCharsOf sentences)
        (estimatedDuration sentences probed))).sum =
        estimatedDuration sentences probed := by
      have hmap : sentences.map (sentenceDuration (totalCharsOf sentences)
          (estimatedDuration sentences probed)) =
          sentences.map (fun s => ((s.length : ℚ) /
            ((totalCharsOf sentences : ℕ) : ℚ)) *
            estimatedDuration sentences probed) :=
        List.map_congr_left (fun s hs => max_eq_left (hfloor s hs))
      rw [hmap, List.sum_map_mul_right]
      simp only [div_eq_mul_inv]
      rw [List.sum_map_mul_right]
      have hcast : (sentences.map (fun s => ((s.length : ℕ) : ℚ))).sum =
          ((totalCharsOf sentences : ℕ) : ℚ) := by
        rw [htc, Nat.cast_list_sum, List.map_map]
        rfl
      rw [hcast, mul_inv_cancel₀ htcq, one_mul]
    rw [hsum]

/-- C1 witness: the amended theorem applied to chunks `ab`, `cd` with a
failed duration probe. -/
theorem C1_witness :
    ∃ segs, fallbackAlignment [("ab").toList, ("cd").toList] none = .ok segs ∧
      segs.length = ([("ab").toList, ("cd").toList] : List Str).length ∧
      (segs.map Segment.start).head? = some 0 ∧
      List.Chain' (fun a b => a.endTime = b.start ∧ a.start ≤ b.start) segs ∧
      (segs.map Segment.endTime).getLast? =
        some (pyround3 ((([("ab").toList, ("cd").toList] : List Str).map
          (sentenceDuration (totalCharsOf [("ab").toList, ("cd").toList])
            (estimatedDuration [("ab").toList, ("cd").toList] none))).sum)) ∧
      ((∀ s ∈ ([("ab").toList, ("cd").toList] : List Str),
          1/2 ≤ ((s.length : ℚ) /
            ((totalCharsOf [("ab").toList, ("cd").toList] : ℕ) : ℚ)) *
            estimatedDuration [("ab").toList, ("cd").toList] none) →
        (segs.map Segment.endTime).getLast? =
          some (pyround3 (estimatedDuration [("ab").toList, ("cd").toList] none))) :=
  C1_fallback_timeline [("ab").toList, ("cd").toList] none (by decide) (by decide)

/-- C8: in the fallback, each chunk's duration is the proportional share
`(chunkCharLen / totalCharLen) × totalDuration` floored at 0.5 s: it is
never below 0.5 s, is monotonically non-decreasing in the chunk's character
length (chunk list and duration fixed), and each emitted segment's rounded
span `end - start` is within 1 ms of that duration. -/
theorem C8_duration_monotone :
    (∀ (tc : ℕ) (D : ℚ) (s : Str), 1/2 ≤ sentenceDuration tc D s) ∧
    (∀ (tc : ℕ) (D : ℚ) (s t : Str), s.length ≤ t.length →
      sentenceDuration tc D s ≤ sentenceDuration tc D t) ∧
    (∀ (tc : ℕ) (D : ℚ) (ss : List Str) (ct : ℚ),
      List.Forall₂ (fun seg s =>
          |(seg.endTime - seg.start) - sentenceDuration tc D s| ≤ 1/1000)
        (fallbackSpec tc D ss ct) ss) := by
  refine ⟨sentenceDuration_ge, ?_, fallbackSpec_durations⟩
  intro tc D s t hlen
  unfold sentenceDuration
  rcases le_or_lt 0 D with hD | hD
  · rcases Nat.eq_zero_or_pos tc with htc | htc
    · subst htc
      norm_num
    · have htcq : (0 : ℚ) < (tc : ℚ) := by exact_mod_cast htc
      have hstep : ((s.length : ℚ) / (tc : ℚ)) * D ≤
          ((t.length : ℚ) / (tc : ℚ)) * D := by
        apply mul_le_mul_of_nonneg_right _ hD
        exact (div_le_div_right htcq).mpr (by exact_mod_cast hlen)
      exact max_le_max hstep le_rfl
  · have hs : ((s.length : ℚ) / (tc : ℚ)) * D ≤ 0 := by
      apply mul_nonpos_of_nonneg_of_nonpos (by positivity) (le_of_lt hD)
    have ht : ((t.length : ℚ) / (tc : ℚ)) * D ≤ 0 := by
      apply mul_nonpos_of_nonneg_of_nonpos (by positivity) (le_of_lt hD)
    rw [max_eq_right (by linarith), max_eq_right (by linarith)]

/-- C8 witness: the duration floor and monotonicity at concrete chunks. -/
theorem C8_witness :
    1/2 ≤ sentenceDuration 5 3 (("a").toList) ∧
    sentenceDuration 5 3 (("a").toList) ≤ sentenceDuration 5 3 (("ab").toList) :=
  ⟨C8_duration_monotone.1 5 3 (("a").toList),
   C8_duration_monotone.2.1 5 3 (("a").toList) (("ab").toList) (by decide)⟩

-- Facts about `forcedAlign`.

theorem joinSep_mem_left {x : Char} (sep : Str) (w : Str) (ws : List Str)
    (hx : x ∈ w) : x ∈ joinSep sep (w :: ws) := by
  rcases ws with _ | ⟨v, vs⟩
  · simpa [joinSep] using hx
  · rw [joinSep_cons_cons]
    exact List.mem_append_left _ (List.mem_append_left _ hx)

theorem splitIntoSentences_mem_props (text : Str) (mw : ℕ) (hmw : 1 ≤ mw) :
    ∀ c ∈ splitIntoSentences text mw, c ≠ [] ∧ ∃ ch ∈ c, isWS ch = false := by
  obtain ⟨n, rfl⟩ : ∃ n, mw = n + 1 := ⟨mw - 1, by omega⟩
  intro c hc
  rw [splitIntoSentences_eq] at hc
  rcases List.mem_map.mp hc with ⟨g, hgmem, rfl⟩
  have hprops := pywords_mem_props (pystrip text)
  have hp := toChunks_mem_props n (pywords (pystrip text)).length _ le_rfl g hgmem
  have hsub := toChunks_mem_subset hgmem
  constructor
  · exact joinSep_ne_nil hp.1 (fun x hx => (hprops x (hsub x hx)).1)
  · rcases g with _ | ⟨w, gs⟩
    · exact absurd rfl hp.1
    · have hw := hprops w (hsub w (List.mem_cons_self _ _))
      rcases w with _ | ⟨ch, wcs⟩
      · exact absurd rfl hw.1
      · exact ⟨ch, joinSep_mem_left _ _ _ (List.mem_cons_self _ _),
          hw.2 ch (List.mem_cons_self _ _)⟩

theorem fallbackSpec_mem_valid (tc : ℕ) (D : ℚ) :
    ∀ (ss : List Str) (ct : ℚ), 0 ≤ ct →
      (∀ s ∈ ss, ∃ ch ∈ s, isWS ch = false) →
      ∀ seg ∈ fallbackSpec tc D ss ct,
        0 ≤ seg.start ∧ 0 ≤ seg.endTime ∧ ∃ ch ∈ seg.text, isWS ch = false := by
  intro ss
  induction ss with
  | nil => intro ct _ _ seg hseg; simp [fallbackSpec] at hseg
  | cons s rest ih =>
    intro ct hct hs seg hseg
    have hd := sentenceDuration_ge tc D s
    have h2 : (0:ℚ) ≤ ct + sentenceDuration tc D s := by linarith
    rw [fallbackSpec_cons] at hseg
    rcases List.mem_cons.mp hseg with hseg | hseg
    · subst hseg
      exact ⟨pyround3_nonneg hct, pyround3_nonneg h2,
        hs s (List.mem_cons_self _ _)⟩
    · exact ih _ h2 (fun x hx => hs x (List.mem_cons_of_mem _ hx)) seg hseg

theorem parseFragments_valid :
    ∀ (frags : List Fragment) (segs : List Segment),
      parseFragments frags = .ok segs →
      ∀ seg ∈ segs,
        0 ≤ seg.start ∧ 0 ≤ seg.endTime ∧ ∃ ch ∈ seg.text, isWS ch = false := by
  intro frags
  induction frags with
  | nil =>
    intro segs h seg hseg
    unfold parseFragments at h
    cases h
    simp at hseg
  | cons f rest ih =>
    intro segs h seg hseg
    unfold parseFragments at h
    split at h
    · cases h
    · rename_i line ls hl
      split at h
      · exact ih segs h seg hseg
      · rename_i hstrip
        split at h
        · cases h
        · rename_i seg1 hm
          split at h
          · cases h
          · rename_i tail hr
            cases h
            rcases mkSegment_ok_inv hm with ⟨rfl, hb, he, hlen⟩
            rcases List.mem_cons.mp hseg with hseg | hseg
            · subst hseg
              exact ⟨hb, he, exists_nonws_of_pystrip_ne_nil hstrip⟩
            · exact ih tail hr seg hseg

theorem forcedAlign_ok (script : Str) (language : String)
    (tool : String → Except String (List Fragment)) (probed : Option ℚ)
    (h : splitIntoSentences script 5 ≠ []) :
    ∃ out, forcedAlign script language tool probed = .ok out := by
  unfold forcedAlign
  rw [if_neg h]
  have hmem := splitIntoSentences_mem_props script 5 (by omega)
  rcases hA : runAeneas
      (tool ((LANGUAGE_MAP.lookup (resolveLanguage language)).getD "eng")) with
    e | asegs
  · -- aeneas failed: the fallback path, then normalization
    have hfb : fallbackAlignment (splitIntoSentences script 5) probed =
        .ok (fallbackSpec (totalCharsOf (splitIntoSentences script 5))
          (estimatedDuration (splitIntoSentences script 5) probed)
          (splitIntoSentences script 5) 0) :=
      fallbackLoop_eq_spec _ _ _ 0 le_rfl (fun s hs => (hmem s hs).1)
    have hvalid := fallbackSpec_mem_valid
      (totalCharsOf (splitIntoSentences script 5))
      (estimatedDuration (splitIntoSentences script 5) probed)
      (splitIntoSentences script 5) 0 le_rfl (fun s hs => (hmem s hs).2)
    rcases @normalizeSegments_ok 80 2 (by omega) _ hvalid with ⟨out, hout, -⟩
    exact ⟨out, by simp only [hfb, hout]⟩
  · -- aeneas succeeded: its parsed segments normalize
    have hvalid : ∀ seg ∈ asegs,
        0 ≤ seg.start ∧ 0 ≤ seg.endTime ∧ ∃ ch ∈ seg.text, isWS ch = false := by
      unfold runAeneas at hA
      rcases ht : tool ((LANGUAGE_MAP.lookup (resolveLanguage language)).getD "eng") with
        e | frags
      · rw [ht] at hA; cases hA
      · rw [ht] at hA
        exact parseFragments_valid frags asegs hA
    rcases @normalizeSegments_ok 80 2 (by omega) _ hvalid with ⟨out, hout, -⟩
    exact ⟨out, by simp only [hout]⟩

/-- C6: `forced_align` fails (raises `AlignmentError`) exactly when the script
yields zero chunks (empty or whitespace-only script); an unsupported language
code never causes failure — it is replaced by the fixed default `"eng"` and
the request proceeds identically. -/
theorem C6_align_error_iff :
    (∀ (script : Str) (language : String)
        (tool : String → Except String (List Fragment)) (probed : Option ℚ),
      (∃ e, forcedAlign script language tool probed = .error e) ↔
        splitIntoSentences script 5 = []) ∧
    (∀ (script : Str) (language : String)
        (tool : String → Except String (List Fragment)) (probed : Option ℚ),
      (LANGUAGE_MAP.lookup language).isSome = false →
        resolveLanguage language = "eng" ∧
        forcedAlign script language tool probed =
          forcedAlign script "eng" tool probed) := by
  constructor
  · intro script language tool probed
    constructor
    · rintro ⟨e, he⟩
      by_contra hne
      rcases forcedAlign_ok script language tool probed hne with ⟨out, hout⟩
      rw [hout] at he
      cases he
    · intro h
      refine ⟨"No sentences found in script text", ?_⟩
      unfold forcedAlign
      rw [if_pos h]
  · intro script language tool probed h
    have h1 : resolveLanguage language = "eng" := by
      unfold resolveLanguage
      rw [h]
      simp
    have h2 : resolveLanguage "eng" = "eng" := by decide
    refine ⟨h1, ?_⟩
    unfold forcedAlign
    rw [h1, h2]

/-- C6 witness: with an unsupported language code `xx`, alignment proceeds
exactly as with the default code. -/
theorem C6_witness :
    resolveLanguage "xx" = "eng" ∧
    forcedAlign ("hi there").toList "xx" (fun _ => .error "aeneas missing")
        (some 2) =
      forcedAlign ("hi there").toList "eng" (fun _ => .error "aeneas missing")
        (some 2) :=
  C6_align_error_iff.2 ("hi there").toList "xx"
    (fun _ => .error "aeneas missing") (some 2) (by decide)

-- app/templates/styles.py

/-- An ASS subtitle style record (`ASSStyle` dataclass). Python floats are
modelled as `ℚ`, strings as `String`. -/
structure ASSStyle where
  name : String
  fontname : String
  fontsize : ℤ
  primary_color : String
  secondary_color : String
  outline_color : String
  back_color : String
  bold : ℤ
  italic : ℤ
  underline : ℤ
  strikeout : ℤ
  scale_x : ℤ
  scale_y : ℤ
  spacing : ℤ
  angle : ℚ
  border_style : ℤ
  outline : ℚ
  shadow : ℚ
  alignment : ℤ
  margin_l : ℤ
  margin_r : ℤ
  margin_v : ℤ
  encoding : ℤ
deriving DecidableEq, Repr

/-- The `tiktok_clean` preset. -/
def tiktok_clean : ASSStyle :=
  ⟨"Default", "Inter", 48, "&H00FFFFFF", "&H000000FF", "&H00000000",
   "&H80000000", -1, 0, 0, 0, 100, 100, 0, 0, 1, 5/2, 3/2, 2, 40, 40, 80, 1⟩

/-- The `tiktok_bold` preset. -/
def tiktok_bold : ASSStyle :=
  ⟨"Default", "Inter", 56, "&H00FFFFFF", "&H000000FF", "&H00000000",
   "&H80000000", -1, 0, 0, 0, 100, 100, 1, 0, 1, 3, 2, 2, 40, 40, 100, 1⟩

/-- The `minimal` preset. -/
def minimal : ASSStyle :=
  ⟨"Default", "Arial", 40, "&H00FFFFFF", "&H000000FF", "&H00000000",
   "&H00000000", 0, 0, 0, 0, 100, 100, 0, 0, 1, 3/2, 0, 2, 20, 20, 60, 1⟩

/-- `get_style_presets()`: the preset catalog, freshly constructed on every
call (modelled as an ordered association list). -/
def get_style_presets : List (String × ASSStyle) :=
  [("tiktok_clean", tiktok_clean), ("tiktok_bold", tiktok_bold),
   ("minimal", minimal)]

/-- The name substitution in `get_style_for_resolution`: unknown presets fall
back to `tiktok_clean`. -/
def resolvePresetName (catalog : List (String × ASSStyle)) (p : String) :
    String :=
  if (catalog.lookup p).isSome then p else "tiktok_clean"

/-- The four mutations `get_style_for_resolution` applies to the looked-up
style record: `int(fontsize * scale)`, `int(margin_v * scale)`,
`round(outline * scale, 1)`, `round(shadow * scale, 1)` with
`scale = height / 1080.0`. -/
def scaleStyle (style : ASSStyle) (height : ℕ) : ASSStyle :=
  { style with
    fontsize := pytrunc ((style.fontsize : ℚ) * ((height : ℚ) / 1080)),
    margin_v := pytrunc ((style.margin_v : ℚ) * ((height : ℚ) / 1080)),
    outline := pyround1 (style.outline * ((height : ℚ) / 1080)),
    shadow := pyround1 (style.shadow * ((height : ℚ) / 1080)) }

/-- `get_style_for_resolution(preset_name, width, height)`: look up the preset
(falling back to `tiktok_clean`) in a fresh catalog and scale it for the
target height; `width` is unused by the source. -/
def get_style_for_resolution (preset_name : String) (width height : ℕ) :
    ASSStyle :=
  scaleStyle
    ((get_style_presets.lookup
        (resolvePresetName get_style_presets preset_name)).getD tiktok_clean)
    height

/-- The same call modelled against an EXPLICIT catalog state: the Python code
mutates the looked-up record in place, so the call returns the scaled record
together with the catalog in which that entry has been overwritten. -/
def get_style_call (catalog : List (String × ASSStyle)) (presetName : String)
    (width height : ℕ) : ASSStyle × List (String × ASSStyle) :=
  (scaleStyle
      ((catalog.lookup (resolvePresetName catalog presetName)).getD
        tiktok_clean) height,
   catalog.map (fun e =>
     if e.1 = resolvePresetName catalog presetName then
       (e.1,
        scaleStyle
          ((catalog.lookup (resolvePresetName catalog presetName)).getD
            tiktok_clean) height)
     else e))

/-- A sequence of style-resolution requests as the server executes them: each
call constructs a fresh catalog via `get_style_presets()`. -/
def runRequests (reqs : List (String × ℕ × ℕ)) : List ASSStyle :=
  reqs.map (fun r => get_style_for_resolution r.1 r.2.1 r.2.2)

/-- The counterfactual in which the catalog were shared across calls, with each
call's in-place mutation visible to the next. -/
def runRequestsShared : List (String × ℕ × ℕ) → List (String × ASSStyle) →
    List ASSStyle
  | [], _ => []
  | r :: rs, cat =>
    (get_style_call cat r.1 r.2.1 r.2.2).1 ::
      runRequestsShared rs (get_style_call cat r.1 r.2.1 r.2.2).2

section

attribute [local semireducible] Rat.mul Rat.inv Rat.add Rat.sub

/-- C3, counterexample: the code truncates (`int()`) the scaled font size
toward zero rather than rounding to the nearest integer — at height 719 the
scaled `tiktok_clean` font size 48 × 719/1080 ≈ 31.96 becomes 31, while
nearest-integer rounding gives 32; and the `minimal` preset's shadow is 0, so
resolving at 720 does not yield a strictly smaller shadow than at 1080. -/
theorem C3_counterexample :
    (get_style_for_resolution "tiktok_clean" 1280 719).fontsize = 31 ∧
    roundHalfEven ((48 : ℚ) * ((719 : ℚ) / 1080)) = 32 ∧
    (get_style_for_resolution "minimal" 1280 720).shadow =
      (get_style_for_resolution "minimal" 1920 1080).shadow := by
  refine ⟨by decide, by decide, by decide⟩

/-- C3 (amended): style resolution computes `scaleFactor = height / 1080`,
multiplies font size and vertical margin by it and TRUNCATES each toward
zero (`int()`), multiplies outline and shadow by it rounded to one decimal
place, and leaves all other fields unchanged; at height 720 versus 1080 the
font size, outline, and vertical margin are strictly smaller, and the shadow
is no larger (strictly smaller exactly when the preset's base shadow is
non-zero — the `minimal` preset's shadow is 0 at both heights). -/
theorem C3_style_scaling :
    (∀ p ∈ get_style_presets, ∀ w h : ℕ,
      get_style_for_resolution p.1 w h =
        { p.2 with
          fontsize := pytrunc ((p.2.fontsize : ℚ) * ((h : ℚ) / 1080)),
          margin_v := pytrunc ((p.2.margin_v : ℚ) * ((h : ℚ) / 1080)),
          outline := pyround1 (p.2.outline * ((h : ℚ) / 1080)),
          shadow := pyround1 (p.2.shadow * ((h : ℚ) / 1080)) }) ∧
    (∀ p ∈ get_style_presets, ∀ w w' : ℕ,
      (get_style_for_resolution p.1 w 720).fontsize <
        (get_style_for_resolution p.1 w' 1080).fontsize ∧
      (get_style_for_resolution p.1 w 720).margin_v <
        (get_style_for_resolution p.1 w' 1080).margin_v ∧
      (get_style_for_resolution p.1 w 720).outline <
        (get_style_for_resolution p.1 w' 1080).outline ∧
      (get_style_for_resolution p.1 w 720).shadow ≤
        (get_style_for_resolution p.1 w' 1080).shadow ∧
      (p.2.shadow ≠ 0 →
        (get_style_for_resolution p.1 w 720).shadow <
          (get_style_for_resolution p.1 w' 1080).shadow)) := by
  constructor
  · intro p hp w h
    rcases show p = ("tiktok_clean", tiktok_clean) ∨
        p = ("tiktok_bold", tiktok_bold) ∨ p = ("minimal", minimal) by
      simpa [get_style_presets] using hp with rfl | rfl | rfl
    · rfl
    · rfl
    · rfl
  · intro p hp w w'
    rcases show p = ("tiktok_clean", tiktok_clean) ∨
        p = ("tiktok_bold", tiktok_bold) ∨ p = ("minimal", minimal) by
      simpa [get_style_presets] using hp with rfl | rfl | rfl
    · rw [show get_style_for_resolution "tiktok_clean" w 720 =
          scaleStyle tiktok_clean 720 from rfl,
        show get_style_for_resolution "tiktok_clean" w' 1080 =
          scaleStyle tiktok_clean 1080 from rfl]
      exact ⟨by decide, by decide, by decide, by decide, fun _ => by decide⟩
    · rw [show get_style_for_resolution "tiktok_bold" w 720 =
          scaleStyle tiktok_bold 720 from rfl,
        show get_style_for_resolution "tiktok_bold" w' 1080 =
          scaleStyle tiktok_bold 1080 from rfl]
      exact ⟨by decide, by decide, by decide, by decide, fun _ => by decide⟩
    · rw [show get_style_for_resolution "minimal" w 720 =
          scaleStyle minimal 720 from rfl,
        show get_style_for_resolution "minimal" w' 1080 =
          scaleStyle minimal 1080 from rfl]
      exact ⟨by decide, by decide, by decide, by decide,
        fun hs => (hs (by decide)).elim⟩

/-- C3 witness: the amended scaling law applied to `tiktok_clean` at
1920×1080. -/
theorem C3_witness :
    get_style_for_resolution "tiktok_clean" 1920 1080 =
      { tiktok_clean with
        fontsize := pytrunc ((tiktok_clean.fontsize : ℚ) * ((1080 : ℚ) / 1080)),
        margin_v := pytrunc ((tiktok_clean.margin_v : ℚ) * ((1080 : ℚ) / 1080)),
        outline := pyround1 (tiktok_clean.outline * ((1080 : ℚ) / 1080)),
        shadow := pyround1 (tiktok_clean.shadow * ((1080 : ℚ) / 1080)) } :=
  C3_style_scaling.1 ("tiktok_clean", tiktok_clean) (by decide) 1920 1080

/-- C10: style resolution is deterministic and free of cross-call
interference. Within a request trace, requests with equal arguments get
equal style records; a call on a fresh catalog is exactly
`get_style_for_resolution`; and although each call mutates the record in the
catalog it reads (so a SHARED catalog would compound the scaling — the
counterfactual trace differs), the code constructs a fresh catalog per call,
so repeated identical requests return identical records. -/
theorem C10_style_isolation :
    (∀ (reqs : List (String × ℕ × ℕ)) (i j : ℕ),
      reqs[i]? = reqs[j]? →
      (runRequests reqs)[i]? = (runRequests reqs)[j]?) ∧
    (∀ (p : String) (w h : ℕ),
      (get_style_call get_style_presets p w h).1 =
        get_style_for_resolution p w h) ∧
    runRequestsShared
        [("tiktok_clean", 1080, 720), ("tiktok_clean", 1080, 720)]
        get_style_presets ≠
      runRequests [("tiktok_clean", 1080, 720), ("tiktok_clean", 1080, 720)] ∧
    runRequests [("tiktok_clean", 1080, 720), ("tiktok_clean", 1080, 720)] =
      [get_style_for_resolution "tiktok_clean" 1080 720,
       get_style_for_resolution "tiktok_clean" 1080 720] := by
  refine ⟨?_, fun p w h => rfl, by decide, rfl⟩
  intro reqs i j hij
  unfold runRequests
  rw [List.getElem?_map, List.getElem?_map, hij]

/-- C10 witness: two identical requests in a trace yield equal records. -/
theorem C10_witness :
    (runRequests [("minimal", 1080, 720), ("minimal", 1080, 720)])[0]? =
      (runRequests [("minimal", 1080, 720), ("minimal", 1080, 720)])[1]? :=
  C10_style_isolation.1 [("minimal", 1080, 720), ("minimal", 1080, 720)] 0 1
    (by decide)

end

-- app/services/ass_generator.py

/-- Decimal rendering of a natural number (Python `str`/f-string). -/
def natToStr (n : ℕ) : Str := Nat.toDigits 10 n

/-- Decimal rendering of an integer. -/
def intToStr (n : ℤ) : Str :=
  if n < 0 then '-' :: natToStr n.natAbs else natToStr n.toNat

/-- One-decimal rendering of a rational, standing in for Python's float repr;
every float formatted by the generator (preset outline/shadow/angle values
and their one-decimal roundings) is a non-negative multiple of 0.1, where
this agrees with Python. -/
def ratToStr1 (q : ℚ) : Str :=
  intToStr (Rat.floor q) ++ '.' ::
    natToStr (Rat.floor (q * 10) - 10 * Rat.floor q).toNat

/-- Python's `f"{x:02d}"`: zero-pad to two digits. -/
def pad2 (n : ℤ) : Str :=
  if 0 ≤ n ∧ n < 10 then '0' :: intToStr n else intToStr n

/-- `_seconds_to_ass_time(seconds)`: `H:MM:SS.cc`. Following the source:
`hours = int(seconds // 3600)`, `minutes = int((seconds % 3600) // 60)`,
`secs = int(seconds % 60)`, `centiseconds = int((seconds % 1) * 100)`,
rendered as `f"{hours}:{minutes:02d}:{secs:02d}.{centiseconds:02d}"`. -/
def secondsToAssTime (seconds : ℚ) : Str :=
  intToStr (Rat.floor (seconds / 3600)) ++ ':' ::
  pad2 (Rat.floor (pymod seconds 3600 / 60)) ++ ':' ::
  pad2 (pytrunc (pymod seconds 60)) ++ '.' ::
  pad2 (pytrunc (pymod seconds 1 * 100))

/-- `_escape_ass_text(text)`: replace newlines with the ASS line break `\N`;
nothing else is escaped (curly braces intentionally pass through). -/
def escapeAssText (text : Str) : Str :=
  text.flatMap (fun c => if c = '\n' then ['\\', 'N'] else [c])

/-- `AVAILABLE_PRESETS = list(get_style_presets().keys())`. -/
def AVAILABLE_PRESETS : List String := get_style_presets.map Prod.fst

/-- `ASSStyle.to_ass_line()`: the single comma-joined style record of 23
positional fields. -/
def toAssLine (st : ASSStyle) : Str :=
  ("Style: ").toList ++
    joinSep [','] [st.name.toList, st.fontname.toList, intToStr st.fontsize,
      st.primary_color.toList, st.secondary_color.toList,
      st.outline_color.toList, st.back_color.toList, intToStr st.bold,
      intToStr st.italic, intToStr st.underline, intToStr st.strikeout,
      intToStr st.scale_x, intToStr st.scale_y, intToStr st.spacing,
      ratToStr1 st.angle, intToStr st.border_style, ratToStr1 st.outline,
      ratToStr1 st.shadow, intToStr st.alignment, intToStr st.margin_l,
      intToStr st.margin_r, intToStr st.margin_v, intToStr st.encoding]

/-- One dialogue event line:
`f"Dialogue: 0,{start},{end},Default,,0,0,0,,{text}"`. -/
def dialogueLine (seg : Segment) : Str :=
  ("Dialogue: 0,").toList ++ secondsToAssTime seg.start ++ ',' ::
  secondsToAssTime seg.endTime ++ (",Default,,0,0,0,,").toList ++
  escapeAssText seg.text

/-- The fixed header/style/events-format lines `generate_ass` appends before
the dialogue events, in source order. -/
def assHeaderLines (stylePreset : String) (res : ℕ × ℕ) : List Str :=
  [("[Script Info]").toList,
   ("Title: Generated Subtitles").toList,
   ("ScriptType: v4.00+").toList,
   ("PlayResX: ").toList ++ natToStr res.1,
   ("PlayResY: ").toList ++ natToStr res.2,
   ("ScaledBorderAndShadow: yes").toList,
   ("YCbCr Matrix: TV.709").toList,
   [],
   ("[V4+ Styles]").toList,
   ("Format: Name, Fontname, Fontsize, PrimaryColour, SecondaryColour, OutlineColour, BackColour, Bold, Italic, Underline, StrikeOut, ScaleX, ScaleY, Spacing, Angle, BorderStyle, Outline, Shadow, Alignment, MarginL, MarginR, MarginV, Encoding").toList,
   toAssLine (get_style_for_resolution
     (if stylePreset ∈ AVAILABLE_PRESETS then stylePreset else "tiktok_clean")
     res.1 res.2),
   [],
   ("[Events]").toList,
   ("Format: Layer, Start, End, Style, Name, MarginL, MarginR, MarginV, Effect, Text").toList]

/-- The full line list built by `generate_ass` (`ass_content` in the source):
the fixed headers followed by one dialogue line per segment, in order. -/
def generateAssLines (segments : List Segment) (stylePreset : String)
    (res : ℕ × ℕ) : List Str :=
  assHeaderLines stylePreset res ++ segments.map dialogueLine

/-- `generate_ass(segments, style_preset, resolution)`:
`"\n".join(ass_content)`. -/
def generate_ass (segments : List Segment) (stylePreset : String)
    (res : ℕ × ℕ) : Str :=
  joinSep ['\n'] (generateAssLines segments stylePreset res)

/-- Boolean string-prefix test (for picking the dialogue lines out of the
generated document). -/
def strLeads : Str → Str → Bool
  | [], _ => true
  | _ :: _, [] => false
  | a :: as, b :: bs => a == b && strLeads as bs

-- Facts about `pymod` and `pad2`.

theorem pymod_nonneg (a : ℚ) {b : ℚ} (hb : 0 < b) : 0 ≤ pymod a b := by
  rw [pymod_eq]
  have h1 : ((⌊a / b⌋ : ℤ) : ℚ) ≤ a / b := Int.floor_le _
  have h2 : b * ((⌊a / b⌋ : ℤ) : ℚ) ≤ b * (a / b) :=
    mul_le_mul_of_nonneg_left h1 hb.le
  have h3 : b * (a / b) = a := by field_simp
  linarith

theorem pymod_lt (a : ℚ) {b : ℚ} (hb : 0 < b) : pymod a b < b := by
  rw [pymod_eq]
  have h1 : a / b < ((⌊a / b⌋ : ℤ) : ℚ) + 1 := Int.lt_floor_add_one _
  have h2 : b * (a / b) < b * (((⌊a / b⌋ : ℤ) : ℚ) + 1) :=
    mul_lt_mul_of_pos_left h1 hb
  have h3 : b * (a / b) = a := by field_simp
  rw [mul_add, mul_one] at h2
  linarith

theorem pad2_length_nat : ∀ n : ℕ, n < 100 → (pad2 (n : ℤ)).length = 2 := by
  decide

theorem pad2_length {z : ℤ} (h0 : 0 ≤ z) (h1 : z < 100) :
    (pad2 z).length = 2 := by
  rcases Int.eq_ofNat_of_zero_le h0 with ⟨m, rfl⟩
  exact pad2_length_nat m (by exact_mod_cast h1)

section

attribute [local semireducible] Rat.mul Rat.inv Rat.add Rat.sub

/-- C2: for every non-negative number of seconds, `_seconds_to_ass_time`
produces `H:MM:SS.cc` — hours unpadded, minutes/seconds/centiseconds
zero-padded to exactly two digits (each component in range), with the
centisecond component truncated (the floor of `(seconds % 1) * 100`, never
rounded up); and the four specified examples hold. -/
theorem C2_timestamp_format :
    (∀ s : ℚ, 0 ≤ s →
      ∃ M S C : ℤ,
        0 ≤ M ∧ M < 60 ∧ 0 ≤ S ∧ S < 60 ∧ 0 ≤ C ∧ C < 100 ∧
        secondsToAssTime s =
          intToStr (Rat.floor (s / 3600)) ++ ':' :: pad2 M ++ ':' ::
            pad2 S ++ '.' :: pad2 C ∧
        (pad2 M).length = 2 ∧ (pad2 S).length = 2 ∧ (pad2 C).length = 2 ∧
        ((C : ℚ) ≤ pymod s 1 * 100 ∧ pymod s 1 * 100 < (C : ℚ) + 1)) ∧
    secondsToAssTime 0 = ("0:00:00.00").toList ∧
    secondsToAssTime (261/4) = ("0:01:05.25").toList ∧
    secondsToAssTime 3665 = ("1:01:05.00").toList ∧
    secondsToAssTime (199/100) = ("0:00:01.99").toList := by
  refine ⟨?_, by decide, by decide, by decide, by decide⟩
  intro s _
  have hm36 : 0 ≤ pymod s 3600 := pymod_nonneg s (by norm_num)
  have hm36' : pymod s 3600 < 3600 := pymod_lt s (by norm_num)
  have hm60 : 0 ≤ pymod s 60 := pymod_nonneg s (by norm_num)
  have hm60' : pymod s 60 < 60 := pymod_lt s (by norm_num)
  have hm1 : 0 ≤ pymod s 1 := pymod_nonneg s (by norm_num)
  have hm1' : pymod s 1 < 1 := pymod_lt s (by norm_num)
  have hMdef : Rat.floor (pymod s 3600 / 60) = ⌊pymod s 3600 / 60⌋ :=
    (intFloor_eq_ratFloor _).symm
  have hSdef : pytrunc (pymod s 60) = ⌊pymod s 60⌋ := pytrunc_eq_floor hm60
  have hCdef : pytrunc (pymod s 1 * 100) = ⌊pymod s 1 * 100⌋ :=
    pytrunc_eq_floor (by positivity)
  have hM0 : (0 : ℤ) ≤ Rat.floor (pymod s 3600 / 60) := by
    rw [hMdef]
    exact Int.floor_nonneg.mpr (by positivity)
  have hM1 : Rat.floor (pymod s 3600 / 60) < 60 := by
    rw [hMdef]
    apply Int.floor_lt.mpr
    rw [div_lt_iff (by norm_num : (0:ℚ) < 60)]
    push_cast
    linarith
  have hS0 : (0 : ℤ) ≤ pytrunc (pymod s 60) := by
    rw [hSdef]
    exact Int.floor_nonneg.mpr hm60
  have hS1 : pytrunc (pymod s 60) < 60 := by
    rw [hSdef]
    exact Int.floor_lt.mpr (by push_cast; linarith)
  have hC0 : (0 : ℤ) ≤ pytrunc (pymod s 1 * 100) := by
    rw [hCdef]
    exact Int.floor_nonneg.mpr (by positivity)
  have hC1 : pytrunc (pymod s 1 * 100) < 100 := by
    rw [hCdef]
    apply Int.floor_lt.mpr
    push_cast
    nlinarith
  refine ⟨Rat.floor (pymod s 3600 / 60), pytrunc (pymod s 60),
    pytrunc (pymod s 1 * 100), hM0, hM1, hS0, hS1, hC0, hC1, rfl,
    pad2_length hM0 (by omega), pad2_length hS0 (by omega),
    pad2_length hC0 hC1, ?_, ?_⟩
  · rw [hCdef]
    exact Int.floor_le _
  · rw [hCdef]
    push_cast
    exact Int.lt_floor_add_one _

end

/-- C2 witness: the format components at 65.25 s. -/
theorem C2_witness :
    ∃ M S C : ℤ,
      0 ≤ M ∧ M < 60 ∧ 0 ≤ S ∧ S < 60 ∧ 0 ≤ C ∧ C < 100 ∧
      secondsToAssTime (261/4) =
        intToStr (Rat.floor ((261:ℚ)/4 / 3600)) ++ ':' :: pad2 M ++ ':' ::
          pad2 S ++ '.' :: pad2 C ∧
      (pad2 M).length = 2 ∧ (pad2 S).length = 2 ∧ (pad2 C).length = 2 ∧
      ((C : ℚ) ≤ pymod (261/4) 1 * 100 ∧
        pymod (261/4) 1 * 100 < (C : ℚ) + 1) :=
  C2_timestamp_format.1 (261/4) (by norm_num)

-- Facts about the generated document.

theorem strLeads_dialogueLine (seg : Segment) :
    strLeads (("Dialogue: ").toList) (dialogueLine seg) = true := rfl

set_option maxHeartbeats 2000000 in
theorem assHeaderLines_no_dialogue (stylePreset : String) (res : ℕ × ℕ) :
    (assHeaderLines stylePreset res).filter
        (fun l => strLeads (("Dialogue: ").toList) l) = [] := rfl

/-- C9: the generated document has exactly one dialogue line per input
segment, in input order; each dialogue line carries the segment's text with
internal newlines replaced by the `\N` break token, and the escaping
changes nothing else — text without newlines (curly braces included) passes
through verbatim. -/
theorem C9_dialogue_lines :
    (∀ (segments : List Segment) (stylePreset : String) (res : ℕ × ℕ),
      (generateAssLines segments stylePreset res).filter
          (fun l => strLeads (("Dialogue: ").toList) l) =
        segments.map dialogueLine) ∧
    (∀ seg : Segment,
      dialogueLine seg =
        ("Dialogue: 0,").toList ++ secondsToAssTime seg.start ++ ',' ::
          secondsToAssTime seg.endTime ++ (",Default,,0,0,0,,").toList ++
          escapeAssText seg.text) ∧
    (∀ t : Str, (∀ c ∈ t, c ≠ '\n') → escapeAssText t = t) ∧
    (∀ a b : Str,
      escapeAssText (a ++ '\n' :: b) =
        escapeAssText a ++ '\\' :: 'N' :: escapeAssText b) := by
  refine ⟨?_, fun seg => rfl, ?_, ?_⟩
  · intro segments stylePreset res
    unfold generateAssLines
    rw [List.filter_append, assHeaderLines_no_dialogue, List.nil_append]
    rw [List.filter_eq_self]
    intro l hl
    rcases List.mem_map.mp hl with ⟨seg, -, rfl⟩
    exact strLeads_dialogueLine seg
  · intro t ht
    unfold escapeAssText
    induction t with
    | nil => rfl
    | cons c cs ih =>
      rw [List.flatMap_cons, if_neg (ht c (List.mem_cons_self _ _)),
        ih (fun x hx => ht x (List.mem_cons_of_mem _ hx))]
      rfl
  · intro a b
    unfold escapeAssText
    rw [List.flatMap_append, List.flatMap_cons, if_pos rfl]
    rfl

/-- C9 witness: newline-free text passes through escaping verbatim. -/
theorem C9_witness :
    escapeAssText (("hello world").toList) = ("hello world").toList :=
  C9_dialogue_lines.2.2.1 (("hello world").toList) (by decide)
